import Mathlib

set_option maxRecDepth 10000
set_option linter.unusedVariables false

/-
Verification of the lindera-ipadic-neologd dictionary builder.

The development shallowly embeds the builder code (CsvRow parsing, build_dict
aggregation and serialization, build_cost_matrix) as executable Lean functions
over List Char / List Nat (byte) representations, and proves the specified
properties about them. Machine integers are modelled as Nat / Int with explicit
reductions modulo powers of two where the code performs integer casts.
-/

namespace Lindera

/-- Error kinds of the builder library (LinderaErrorKind). -/
inductive ErrKind : Type where
  | io
  | parse
  | content
  | serialize
  | build
  deriving DecidableEq

/-- Result of running a fallible piece of the builder. An ok value models
Ok, err models a returned structured LinderaError, and fault models an
unchecked abort of the process (an out-of-bounds index or a failed assert). -/
inductive Outcome (α : Type) : Type where
  | ok (a : α)
  | err (k : ErrKind) (msg : String)
  | fault (msg : String)
  deriving DecidableEq

/-- Character list of a string literal. -/
def strOf (s : String) : List Char := s.data

/-- Split a character list at every character satisfying p; the separator
characters are dropped and empty pieces are kept, as in Rust str::split. -/
def splitPAux (p : Char → Bool) : List Char → List Char → List (List Char)
  | [], acc => [acc.reverse]
  | c :: cs, acc =>
    if p c then acc.reverse :: splitPAux p cs []
    else splitPAux p cs (c :: acc)

/-- Split on a predicate, starting with an empty accumulator. -/
def splitP (p : Char → Bool) (l : List Char) : List (List Char) :=
  splitPAux p l []

/-- Rust str::split with a single separator character. -/
def splitChar (sep : Char) (l : List Char) : List (List Char) :=
  splitP (fun c => c = sep) l

/-- Rust str::lines: split on the newline character, with no empty final
line when the text ends in a newline. -/
def linesOf (l : List Char) : List (List Char) :=
  let parts := splitChar '\n' l
  match parts.getLast? with
  | some last => if last.isEmpty then parts.dropLast else parts
  | none => parts

/-- Rust str::split_whitespace: split on whitespace characters and drop the
empty pieces, so runs of whitespace act as one separator. -/
def splitWs (l : List Char) : List (List Char) :=
  (splitP Char.isWhitespace l).filter (fun t => !t.isEmpty)

/-- Numeric value of an ascii decimal digit. -/
def digitVal (c : Char) : Option Nat :=
  if '0' ≤ c ∧ c ≤ '9' then some (c.toNat - 48) else none

/-- Accumulate the value of a run of decimal digits; none on a non-digit. -/
def parseDigitsAux : List Char → Nat → Option Nat
  | [], acc => some acc
  | c :: cs, acc =>
    match digitVal c with
    | none => none
    | some d => parseDigitsAux cs (acc * 10 + d)

/-- Value of a non-empty all-digit character list, none otherwise. -/
def parseDigits : List Char → Option Nat
  | [] => none
  | cs => parseDigitsAux cs 0

/-- Rust u32::from_str: an optional plus sign, then decimal digits, and the
value must fit in 32 unsigned bits. -/
def u32_from_str (cs : List Char) : Option Nat :=
  let body := match cs with
    | '+' :: rest => rest
    | _ => cs
  match parseDigits body with
  | none => none
  | some n => if n < 4294967296 then some n else none

/-- Rust i32::from_str: an optional sign, then decimal digits, and the value
must fit in a signed 32-bit integer. -/
def i32_from_str (cs : List Char) : Option Int :=
  match cs with
  | '-' :: rest =>
    match parseDigits rest with
    | none => none
    | some n => if n ≤ 2147483648 then some (-(n : Int)) else none
  | '+' :: rest =>
    match parseDigits rest with
    | none => none
    | some n => if n ≤ 2147483647 then some ((n : Int)) else none
  | cs' =>
    match parseDigits cs' with
    | none => none
    | some n => if n ≤ 2147483647 then some ((n : Int)) else none

/-- Interpretation of a value already reduced mod 2^16 as a two's-complement
signed 16-bit integer. -/
def toI16 (n : Nat) : Int :=
  if n % 65536 < 32768 then ((n % 65536 : Nat) : Int)
  else ((n % 65536 : Nat) : Int) - 65536

/-- Rust cast i32 -> u32: two's-complement reduction mod 2^32. -/
def intAsU32 (x : Int) : Nat := (x % 4294967296).toNat

/-- Rust cast i32 -> u16: two's-complement reduction mod 2^16. -/
def intAsU16 (x : Int) : Nat := (x % 65536).toNat

/-- Rust cast i32 -> i16: keep the low 16 bits, reinterpreted as signed. -/
def intAsI16 (x : Int) : Int := toI16 (x % 65536).toNat

/-- Rust cast u32/usize -> u16. -/
def natAsU16 (n : Nat) : Nat := n % 65536

/-- Rust cast u32 -> i16: keep the low 16 bits, reinterpreted as signed. -/
def natAsI16 (n : Nat) : Int := toI16 n

/-- Rust cast usize -> u32. -/
def natAsU32 (n : Nat) : Nat := n % 4294967296

/-- A parsed CSV row of the source dictionary (struct CsvRow in lib.rs).
String fields are kept as character lists. -/
structure CsvRow : Type where
  surface_form : List Char
  left_id : Nat
  right_id : Nat
  word_cost : Int
  pos_level1 : List Char
  pos_level2 : List Char
  pos_level3 : List Char
  pos_level4 : List Char
  conjugation_type : List Char
  conjugate_form : List Char
  base_form : List Char
  reading : List Char
  pronunciation : List Char
  deriving DecidableEq

/-- CsvRow::from_line: split the line on commas and read the thirteen fields
in order. Indexing a missing field is an unchecked fault, exactly as the
unchecked Vec indexing in the source; a numeric field that does not parse is
a structured Parse error naming the field. -/
def CsvRow.from_line (line : List Char) : Outcome CsvRow :=
  let fields := splitChar ',' line
  match fields[0]? with
  | none => .fault ("index out of bounds")
  | some f0 =>
  match fields[1]? with
  | none => .fault ("index out of bounds")
  | some f1 =>
  match u32_from_str f1 with
  | none => .err .parse ("failed to parse left_id")
  | some leftv =>
  match fields[2]? with
  | none => .fault ("index out of bounds")
  | some f2 =>
  match u32_from_str f2 with
  | none => .err .parse ("failed to parse right_id")
  | some rightv =>
  match fields[3]? with
  | none => .fault ("index out of bounds")
  | some f3 =>
  match i32_from_str f3 with
  | none => .err .parse ("failed to parse word_cost")
  | some costv =>
  match fields[4]? with
  | none => .fault ("index out of bounds")
  | some f4 =>
  match fields[5]? with
  | none => .fault ("index out of bounds")
  | some f5 =>
  match fields[6]? with
  | none => .fault ("index out of bounds")
  | some f6 =>
  match fields[7]? with
  | none => .fault ("index out of bounds")
  | some f7 =>
  match fields[8]? with
  | none => .fault ("index out of bounds")
  | some f8 =>
  match fields[9]? with
  | none => .fault ("index out of bounds")
  | some f9 =>
  match fields[10]? with
  | none => .fault ("index out of bounds")
  | some f10 =>
  match fields[11]? with
  | none => .fault ("index out of bounds")
  | some f11 =>
  match fields[12]? with
  | none => .fault ("index out of bounds")
  | some f12 =>
  .ok { surface_form := f0, left_id := leftv, right_id := rightv,
        word_cost := costv,
        pos_level1 := f4, pos_level2 := f5, pos_level3 := f6, pos_level4 := f7,
        conjugation_type := f8, conjugate_form := f9,
        base_form := f10, reading := f11, pronunciation := f12 }

/-- The two hard-coded surface forms excluded by build_dict (SKIP_WORDS). -/
def SKIP_WORDS : List (List Char) :=
  [strOf ("カブシキガイシャ"), strOf ("タカラヅカカゲキダンキセイ")]

/-- A compiled dictionary entry (lindera WordEntry). The word_id pairs the
u32 sequence number with the system-provided flag of WordId. -/
structure WordEntry : Type where
  word_id : Nat × Bool
  word_cost : Int
  cost_id : Nat
  deriving DecidableEq

/-- The WordEntry that build_dict pushes for the row at enumerate index i:
WordEntry with word_id WordId(row_id as u32, true), word_cost as i16 and
left_id as u16. -/
def mkEntry (i : Nat) (r : CsvRow) : WordEntry :=
  { word_id := (natAsU32 i, true),
    word_cost := intAsI16 r.word_cost,
    cost_id := natAsU16 r.left_id }

/-- Lexicographic order on character lists by code point; for valid UTF-8
this coincides with the byte-wise order Rust uses on String and [u8]. -/
def lexLe : List Char → List Char → Bool
  | [], _ => true
  | _ :: _, [] => false
  | a :: as, b :: bs =>
    if a.toNat < b.toNat then true
    else if b.toNat < a.toNat then false
    else lexLe as bs

/-- Comparison of rows by their surface form, the key of rows.sort_by_key. -/
def rowLe (a b : CsvRow) : Prop := lexLe a.surface_form b.surface_form = true

instance : DecidableRel rowLe := fun a b => inferInstanceAs (Decidable (_ = true))

/-- The stable sort rows.sort_by_key(|row| row.surface_form.clone()). A
stable sort under a total preorder has a unique result, so insertion sort
models it faithfully. -/
def sortRows (rows : List CsvRow) : List CsvRow :=
  List.insertionSort rowLe rows

/-- BTreeMap::entry(k).or_insert_with(Vec::new).push(e) on an association
list ordered strictly by key: append to the group of an existing key, or
insert a fresh singleton group at its ordered position. -/
def mapInsert (k : List Char) (e : WordEntry) :
    List (List Char × List WordEntry) → List (List Char × List WordEntry)
  | [] => [(k, [e])]
  | (k2, es) :: rest =>
    if k = k2 then (k2, es ++ [e]) :: rest
    else if lexLe k k2 then (k, [e]) :: (k2, es) :: rest
    else (k2, es) :: mapInsert k e rest

/-- The enumerated insertion loop of build_dict: the row id advances on
every row, and rows whose surface form is in SKIP_WORDS are not inserted. -/
def buildMapAux : Nat → List CsvRow → List (List Char × List WordEntry) →
    List (List Char × List WordEntry)
  | _, [], m => m
  | i, r :: rs, m =>
    buildMapAux (i + 1) rs
      (if SKIP_WORDS.contains r.surface_form then m
       else mapInsert r.surface_form (mkEntry i r) m)

/-- The word_entry_map of build_dict, built from the sorted rows. -/
def word_entry_map (rows : List CsvRow) : List (List Char × List WordEntry) :=
  buildMapAux 0 (sortRows rows) []

/-- Lookup of the entry group of a key, empty when the key is absent. -/
def mapLookup (k : List Char) : List (List Char × List WordEntry) → List WordEntry
  | [] => []
  | (k2, es) :: rest => if k = k2 then es else mapLookup k rest

/-- The sequence of entries serialized to dict.vals: every group in key
order, every entry of a group in insertion order. -/
def valsEntries (m : List (List Char × List WordEntry)) : List WordEntry :=
  (m.map Prod.snd).flatten

/-- UTF-8 encoding of one scalar value, as the list of its byte values. -/
def utf8Bytes (c : Char) : List Nat :=
  let n := c.toNat
  if n < 128 then [n]
  else if n < 2048 then [192 + n / 64, 128 + n % 64]
  else if n < 65536 then [224 + n / 4096, 128 + n / 64 % 64, 128 + n % 64]
  else [240 + n / 262144, 128 + n / 4096 % 64, 128 + n / 64 % 64, 128 + n % 64]

/-- UTF-8 bytes of a character list, the contents Rust sees as str bytes. -/
def strBytes (s : List Char) : List Nat := (s.map utf8Bytes).flatten

/-- The keyset loop of build_dict: for every group, assert that its length
is below 32, pair the key bytes with (id << 5) | len in u32 arithmetic, and
advance id by len. A failed assert is an unchecked fault. -/
def buildKeysetAux : List (List Char × List WordEntry) → Nat →
    Outcome (List (List Nat × Nat))
  | [], _ => .ok []
  | (k, es) :: rest, id =>
    let len := natAsU32 es.length
    if len < 32 then
      match buildKeysetAux rest (natAsU32 (id + len)) with
      | .ok ks => .ok ((strBytes k, natAsU32 (id <<< 5) ||| len) :: ks)
      | .err k2 m => .err k2 m
      | .fault m => .fault m
    else .fault ("assertion failed: too long")

/-- The keyset handed to the double-array builder, starting from id 0. -/
def buildKeyset (m : List (List Char × List WordEntry)) :
    Outcome (List (List Nat × Nat)) :=
  buildKeysetAux m 0

/-- The nine detail fields of a row, in the order build_dict serializes
them into dict.words. -/
def detailFields (r : CsvRow) : List (List Char) :=
  [r.pos_level1, r.pos_level2, r.pos_level3, r.pos_level4,
   r.conjugation_type, r.conjugate_form, r.base_form, r.reading,
   r.pronunciation]

/-- Little-endian byte list of the low 8 k bits of a number. -/
def leBytes : Nat → Nat → List Nat
  | 0, _ => []
  | k + 1, n => n % 256 :: leBytes k (n / 256)

/-- Bincode 1.x serialization of a string: a little-endian u64 byte count
followed by the UTF-8 bytes. -/
def encodeStr (s : List Char) : List Nat :=
  leBytes 8 (strBytes s).length ++ strBytes s

/-- Bincode 1.x serialization of a vector of strings: a little-endian u64
element count followed by the serialized elements. -/
def encodeWord (w : List (List Char)) : List Nat :=
  leBytes 8 w.length ++ (w.map encodeStr).flatten

/-- The dict.words / dict.wordsidx writing loop of build_dict: for every
row, the current buffer length is written to the index as a little-endian
u32 and the serialized detail record is appended to the buffer. -/
def buildWordsFilesAux : List CsvRow → List Nat → List Nat → List Nat × List Nat
  | [], idx, buf => (idx, buf)
  | r :: rs, idx, buf =>
    buildWordsFilesAux rs (idx ++ leBytes 4 buf.length)
      (buf ++ encodeWord (detailFields r))

/-- The pair (dict.wordsidx bytes, dict.words bytes) produced by build_dict,
iterating over the sorted rows. -/
def wordsFiles (rows : List CsvRow) : List Nat × List Nat :=
  buildWordsFilesAux (sortRows rows) [] []

/-- Closed form of the dict.words buffer: the concatenated encodings in
iteration order. -/
def blobOf : List CsvRow → List Nat
  | [] => []
  | r :: rs => encodeWord (detailFields r) ++ blobOf rs

/-- Closed form of the dict.wordsidx bytes given the byte offset of the
first record. -/
def idxOf : List CsvRow → Nat → List Nat
  | [], _ => []
  | r :: rs, base =>
    leBytes 4 base ++ idxOf rs (base + (encodeWord (detailFields r)).length)

/-- Value of a little-endian byte list. -/
def fromLE : List Nat → Nat
  | [] => 0
  | b :: bs => b + 256 * fromLE bs

/-- Read len bytes of a buffer starting at off, none when the range is out
of bounds. -/
def readBytesAt (bs : List Nat) (off len : Nat) : Option (List Nat) :=
  if off + len ≤ bs.length then some ((bs.drop off).take len) else none

/-- Read a k-byte little-endian number of a buffer at off. -/
def readLE (bs : List Nat) (off k : Nat) : Option Nat :=
  (readBytesAt bs off k).map fromLE

/-- Decode n consecutive bincode strings starting at off, returning their
byte contents. -/
def decodeStrsAt (bs : List Nat) : Nat → Nat → Option (List (List Nat))
  | _, 0 => some []
  | off, n + 1 =>
    match readLE bs off 8 with
    | none => none
    | some len =>
      match readBytesAt bs (off + 8) len with
      | none => none
      | some sb =>
        match decodeStrsAt bs (off + 8 + len) n with
        | none => none
        | some rest => some (sb :: rest)

/-- Decode one bincode vector of strings at a byte offset of dict.words. -/
def decodeWordAt (bs : List Nat) (off : Nat) : Option (List (List Nat)) :=
  match readLE bs off 8 with
  | none => none
  | some n => decodeStrsAt bs (off + 8) n

/-- Parse every whitespace-separated field of a matrix line as an i32; none
as soon as one field fails. -/
def parseAllI32 : List (List Char) → Option (List Int)
  | [] => some []
  | t :: ts =>
    match i32_from_str t with
    | none => none
    | some v =>
      match parseAllI32 ts with
      | none => none
      | some vs => some (v :: vs)

/-- The line-parsing loop of build_cost_matrix: every line is split on
whitespace and parsed; the first failing line aborts with a Parse error. -/
def parseMatrixLines : List (List Char) → Outcome (List (List Int))
  | [] => .ok []
  | l :: ls =>
    match parseAllI32 (splitWs l) with
    | none => .err .parse ("invalid digit found in string")
    | some fs =>
      match parseMatrixLines ls with
      | .ok rest => .ok (fs :: rest)
      | .err k m => .err k m
      | .fault m => .fault m

/-- The data-line loop of build_cost_matrix: read three fields of every
line with unchecked indexing, cast them, and store the cost at
2 + backward_id + forward_id * backward_size in u32 arithmetic; a slot
index outside the array is an unchecked fault. -/
def matrixLoop (bsize : Nat) : List (List Int) → List Int → Outcome (List Int)
  | [], costs => .ok costs
  | fields :: rest, costs =>
    match fields[0]? with
    | none => .fault ("index out of bounds")
    | some g0 =>
    match fields[1]? with
    | none => .fault ("index out of bounds")
    | some g1 =>
    match fields[2]? with
    | none => .fault ("index out of bounds")
    | some g2 =>
      let fid := intAsU32 g0
      let bid := intAsU32 g1
      let c := intAsU16 g2
      let idx := 2 + natAsU32 (bid + fid * bsize)
      if idx < costs.length then
        matrixLoop bsize rest (costs.set idx (toI16 c))
      else .fault ("index out of bounds")

/-- The post-parse part of build_cost_matrix: take the header line with
unchecked indexing, allocate 2 + forward_size * backward_size slots filled
with the i16 maximum, write the narrowed header into slots 0 and 1, then run
the data-line loop. An absent header line is a Content error. -/
def processMatrixLines : List (List Int) → Outcome (List Int)
  | [] => .err .content ("unknown error")
  | header :: rest =>
    match header[0]? with
    | none => .fault ("index out of bounds")
    | some h0 =>
    match header[1]? with
    | none => .fault ("index out of bounds")
    | some h1 =>
      let fsize := intAsU32 h0
      let bsize := intAsU32 h1
      let len := 2 + natAsU32 (fsize * bsize)
      let costs := ((List.replicate len (32767 : Int)).set 0
        (natAsI16 fsize)).set 1 (natAsI16 bsize)
      matrixLoop bsize rest costs

/-- build_cost_matrix on the text of matrix.def: parse all lines, then
process them. -/
def build_cost_matrix (input : List Char) : Outcome (List Int) :=
  match parseMatrixLines (linesOf input) with
  | .ok ls => processMatrixLines ls
  | .err k m => .err k m
  | .fault m => .fault m

/-- A concrete row with surface form b, used in counterexamples. -/
def rowB : CsvRow :=
  { surface_form := strOf ("b"), left_id := 1, right_id := 1, word_cost := 10,
    pos_level1 := strOf ("pb"), pos_level2 := strOf ("*"), pos_level3 := strOf ("*"),
    pos_level4 := strOf ("*"), conjugation_type := strOf ("*"),
    conjugate_form := strOf ("*"), base_form := strOf ("b"),
    reading := strOf ("rb"), pronunciation := strOf ("qb") }

/-- A concrete row with surface form a, used in counterexamples. -/
def rowA : CsvRow :=
  { surface_form := strOf ("a"), left_id := 2, right_id := 2, word_cost := 20,
    pos_level1 := strOf ("pa"), pos_level2 := strOf ("*"), pos_level3 := strOf ("*"),
    pos_level4 := strOf ("*"), conjugation_type := strOf ("*"),
    conjugate_form := strOf ("*"), base_form := strOf ("a"),
    reading := strOf ("ra"), pronunciation := strOf ("qa") }

/-- A concrete row whose surface form is on the skip list. -/
def rowSkip : CsvRow :=
  { surface_form := strOf ("カブシキガイシャ"), left_id := 3, right_id := 3,
    word_cost := 30,
    pos_level1 := strOf ("ps"), pos_level2 := strOf ("*"), pos_level3 := strOf ("*"),
    pos_level4 := strOf ("*"), conjugation_type := strOf ("*"),
    conjugate_form := strOf ("*"), base_form := strOf ("s"),
    reading := strOf ("rs"), pronunciation := strOf ("qs") }

/-- A two-row input whose original order is not the lexicographic order of
the surface forms. -/
def rowsBA : List CsvRow := [rowB, rowA]

/-! Arithmetic facts about the integer casts. -/

theorem toI16_of_lt {n : Nat} (h : n < 32768) : toI16 n = (n : Int) := by
  unfold toI16
  rw [Nat.mod_eq_of_lt (by omega)]
  simp [h]

theorem toI16_lower (n : Nat) : -32768 ≤ toI16 n := by
  unfold toI16
  split <;> omega

theorem toI16_upper (n : Nat) : toI16 n < 32768 := by
  have := Nat.mod_lt n (y := 65536) (by omega)
  unfold toI16
  split <;> omega

theorem toI16_emod (n : Nat) : toI16 n % 65536 = (n : Int) % 65536 := by
  have h := Nat.mod_lt n (y := 65536) (by omega)
  have h2 : ((n % 65536 : Nat) : Int) = (n : Int) % 65536 := by
    push_cast
    ring
  unfold toI16
  split
  · rw [h2, Int.emod_emod_of_dvd _ (by omega)]
  · rw [Int.sub_emod, h2, Int.emod_emod_of_dvd _ (by omega)]
    simp

theorem intAsI16_emod (x : Int) : intAsI16 x % 65536 = x % 65536 := by
  unfold intAsI16
  rw [toI16_emod]
  have h0 : 0 ≤ x % 65536 := Int.emod_nonneg x (by omega)
  rw [Int.toNat_of_nonneg h0, Int.emod_emod_of_dvd _ (by omega)]

theorem intAsU16_toI16_emod (x : Int) : toI16 (intAsU16 x) % 65536 = x % 65536 := by
  unfold intAsU16
  rw [toI16_emod]
  have h0 : 0 ≤ x % 65536 := Int.emod_nonneg x (by omega)
  rw [Int.toNat_of_nonneg h0, Int.emod_emod_of_dvd _ (by omega)]

theorem toI16_intAsU16_of_range {x : Int} (h1 : -32768 ≤ x) (h2 : x < 32768) :
    toI16 (intAsU16 x) = x := by
  unfold intAsU16 toI16
  have h0 : 0 ≤ x % 65536 := Int.emod_nonneg x (by omega)
  have h3 : x % 65536 < 65536 := Int.emod_lt_of_pos x (by omega)
  have h4 : x % 65536 = x ∨ x % 65536 = x + 65536 := by omega
  rcases h4 with h4 | h4 <;>
    · rw [h4]
      split <;> omega

theorem intAsU32_of_range {x : Int} (h1 : 0 ≤ x) (h2 : x < 4294967296) :
    intAsU32 x = x.toNat := by
  unfold intAsU32
  rw [Int.emod_eq_of_lt h1 h2]

theorem natAsU32_of_lt {n : Nat} (h : n < 4294967296) : natAsU32 n = n := by
  unfold natAsU32
  exact Nat.mod_eq_of_lt h

/-! Claim theorems on concrete inputs: the record parser fault and the
cost-matrix scenario. -/

/-- C3: the claim asks that a line with fewer than 13 comma-separated
fields yield a structured Parse error and that the parser never abort with
an unchecked fault. The code indexes the missing field unchecked: on the
4-field line a,1,2,3 whose numeric fields all parse, CsvRow::from_line
aborts with an out-of-bounds indexing fault instead of returning a Parse
error. -/
theorem from_line_short_line_faults :
    CsvRow.from_line (strOf ("a,1,2,3")) = .fault ("index out of bounds") := by
  decide

/-- C6 counterexample: on the matrix input 3 3, 0 0 100, 1 2 -50 the code
does not produce the twelve-element sequence claimed by the specification
(with -50 as the final element). -/
theorem cost_matrix_scenario_not_twelve :
    build_cost_matrix (strOf ("3 3\n0 0 100\n1 2 -50\n")) ≠
      .ok [3, 3, 100, 32767, 32767, 32767, 32767, 32767, 32767, 32767, 32767, -50] := by
  decide

/-- C6 amended: the produced matrix is the eleven-element little-endian i16
sequence [3, 3, 100, MAX, MAX, MAX, MAX, -50, MAX, MAX, MAX]: the array has
length 2 + 3 * 3 = 11 and -50 lands at index 2 + 2 + 1 * 3 = 7, not at the
final index. -/
theorem cost_matrix_scenario_eval :
    build_cost_matrix (strOf ("3 3\n0 0 100\n1 2 -50\n")) =
      .ok [3, 3, 100, 32767, 32767, 32767, 32767, -50, 32767, 32767, 32767] := by
  decide

/-- C9 counterexample: on a matrix input with a malformed data line of only
two fields the compiler does not return a structured Parse error; it aborts
with an unchecked out-of-bounds indexing fault. -/
theorem cost_matrix_short_line_not_parse_error :
    build_cost_matrix (strOf ("3 3\n0 0\n")) = .fault ("index out of bounds") ∧
      (Outcome.fault ("index out of bounds") : Outcome (List Int)) ≠
        .err .parse ("invalid digit found in string") := by
  exact ⟨by decide, by decide⟩

/-! The error behaviour of the cost-matrix line parsing. -/

theorem parseMatrixLines_err_of_bad {ls : List (List Char)}
    (h : ∃ l ∈ ls, parseAllI32 (splitWs l) = none) :
    ∃ msg, parseMatrixLines ls = .err .parse msg := by
  induction ls with
  | nil => simp at h
  | cons l ls ih =>
    rcases h with ⟨l2, hmem, hbad⟩
    rcases List.mem_cons.mp hmem with h1 | h1
    · subst h1
      exact ⟨("invalid digit found in string"), by simp [parseMatrixLines, hbad]⟩
    · rcases Classical.em (parseAllI32 (splitWs l) = none) with hh | hh
      · exact ⟨("invalid digit found in string"), by simp [parseMatrixLines, hh]⟩
      · rcases Option.ne_none_iff_exists.mp hh with ⟨fs, hfs⟩
        rcases ih ⟨l2, h1, hbad⟩ with ⟨msg, hmsg⟩
        exact ⟨msg, by simp [parseMatrixLines, hfs.symm, hmsg]⟩

/-- C9 amended: the cost-matrix compiler returns a structured Parse error on
any input having a line with a token that does not parse as an integer, and
a structured Content error when the input has no lines (no header); but a
wrong field count is not a Parse error: a data line with fewer than three
fields aborts with an unchecked out-of-bounds indexing fault. -/
theorem cost_matrix_errors :
    (∀ input : List Char,
      (∃ l ∈ linesOf input, parseAllI32 (splitWs l) = none) →
        ∃ msg, build_cost_matrix input = .err .parse msg) ∧
    (∀ input : List Char, linesOf input = [] →
        build_cost_matrix input = .err .content ("unknown error")) ∧
    build_cost_matrix (strOf ("3 3\n0 0\n")) = .fault ("index out of bounds") := by
  refine ⟨?_, ?_, by decide⟩
  · intro input h
    rcases parseMatrixLines_err_of_bad h with ⟨msg, hmsg⟩
    exact ⟨msg, by simp [build_cost_matrix, hmsg]⟩
  · intro input h
    simp [build_cost_matrix, h, parseMatrixLines, processMatrixLines]

/-- C9 witness: a concrete non-integer token yields a Parse error and the
empty input yields a Content error, through the amended theorem. -/
theorem cost_matrix_errors_witness :
    (∃ msg, build_cost_matrix (strOf ("3 x")) = .err .parse msg) ∧
      build_cost_matrix (strOf ("")) = .err .content ("unknown error") :=
  ⟨cost_matrix_errors.1 (strOf ("3 x")) (by decide),
   cost_matrix_errors.2.1 (strOf ("")) (by decide)⟩

/-! Little-endian byte encodings and reads. -/

theorem leBytes_length (k n : Nat) : (leBytes k n).length = k := by
  induction k generalizing n with
  | zero => rfl
  | succ k ih => simp [leBytes, ih]

theorem fromLE_leBytes (k n : Nat) : fromLE (leBytes k n) = n % 256 ^ k := by
  induction k generalizing n with
  | zero => simp [leBytes, fromLE, Nat.mod_one]
  | succ k ih =>
    rw [leBytes, fromLE, ih, pow_succ, mul_comm (256 ^ k) 256, Nat.mod_mul]

theorem readBytesAt_exact (pre mid suf : List Nat) {len : Nat}
    (h : mid.length = len) :
    readBytesAt (pre ++ (mid ++ suf)) pre.length len = some mid := by
  unfold readBytesAt
  rw [if_pos (by simp [← h])]
  rw [← List.append_assoc, List.append_assoc pre mid suf]
  rw [List.drop_left pre (mid ++ suf), ← h, List.take_left]

theorem readBytesAt_shift (a bs : List Nat) (off len : Nat) :
    readBytesAt (a ++ bs) (a.length + off) len = readBytesAt bs off len := by
  unfold readBytesAt
  have hd : (a ++ bs).drop (a.length + off) = bs.drop off := by
    rw [← List.drop_drop, List.drop_left]
  simp only [List.length_append]
  rw [hd]
  congr 1
  simp
  omega

theorem readLE_exact (pre suf : List Nat) (k n : Nat) :
    readLE (pre ++ (leBytes k n ++ suf)) pre.length k = some (n % 256 ^ k) := by
  unfold readLE
  rw [readBytesAt_exact pre _ suf (leBytes_length k n)]
  simp [fromLE_leBytes]

theorem readLE_shift (a bs : List Nat) (off k : Nat) :
    readLE (a ++ bs) (a.length + off) k = readLE bs off k := by
  unfold readLE
  rw [readBytesAt_shift]

/-! Round trip of the bincode encoding of detail records. -/

/-- Bincode framing of one byte string: u64 length then contents. -/
def encB (s : List Nat) : List Nat := leBytes 8 s.length ++ s

theorem encB_length (s : List Nat) : (encB s).length = 8 + s.length := by
  simp [encB, leBytes_length]

theorem decodeStrsAt_encode (w : List (List Nat)) :
    ∀ pre suf : List Nat, (∀ s ∈ w, s.length < 2 ^ 64) →
    decodeStrsAt (pre ++ ((w.map encB).flatten ++ suf)) pre.length w.length =
      some w := by
  induction w with
  | nil =>
    intro pre suf h
    simp [decodeStrsAt]
  | cons s w ih =>
    intro pre suf h
    have hs : s.length < 2 ^ 64 := h s (by simp)
    have hbs : pre ++ (((s :: w).map encB).flatten ++ suf) =
        pre ++ (leBytes 8 s.length ++ (s ++ ((w.map encB).flatten ++ suf))) := by
      simp [encB, List.append_assoc]
    have h1 : readLE
        (pre ++ (leBytes 8 s.length ++ (s ++ ((w.map encB).flatten ++ suf))))
        pre.length 8 = some s.length := by
      rw [readLE_exact]
      congr 1
      exact Nat.mod_eq_of_lt (by
        have : (256 : Nat) ^ 8 = 2 ^ 64 := by norm_num
        omega)
    have h2 : readBytesAt
        (pre ++ (leBytes 8 s.length ++ (s ++ ((w.map encB).flatten ++ suf))))
        (pre.length + 8) s.length = some s := by
      have hsplit :
          pre ++ (leBytes 8 s.length ++ (s ++ ((w.map encB).flatten ++ suf))) =
          (pre ++ leBytes 8 s.length) ++ (s ++ ((w.map encB).flatten ++ suf)) := by
        simp [List.append_assoc]
      have hlen : pre.length + 8 = (pre ++ leBytes 8 s.length).length := by
        simp [leBytes_length]
      rw [hsplit, hlen]
      exact readBytesAt_exact _ _ _ rfl
    have h3 : decodeStrsAt
        (pre ++ (leBytes 8 s.length ++ (s ++ ((w.map encB).flatten ++ suf))))
        (pre.length + 8 + s.length) w.length = some w := by
      have hsplit :
          pre ++ (leBytes 8 s.length ++ (s ++ ((w.map encB).flatten ++ suf))) =
          (pre ++ encB s) ++ ((w.map encB).flatten ++ suf) := by
        simp [encB, List.append_assoc]
      have hlen : pre.length + 8 + s.length = (pre ++ encB s).length := by
        simp [encB_length]
        omega
      rw [hsplit, hlen]
      exact ih (pre ++ encB s) suf (fun t ht => h t (by simp [ht]))
    rw [hbs, List.length_cons]
    simp only [decodeStrsAt, h1, h2, h3]

theorem decodeWordAt_encodeWord (w : List (List Char)) (pre suf : List Nat)
    (hw : w.length < 2 ^ 64)
    (hs : ∀ f ∈ w, (strBytes f).length < 2 ^ 64) :
    decodeWordAt (pre ++ (encodeWord w ++ suf)) pre.length =
      some (w.map strBytes) := by
  have hbs : pre ++ (encodeWord w ++ suf) =
      pre ++ (leBytes 8 w.length ++ (((w.map strBytes).map encB).flatten ++ suf)) := by
    simp only [encodeWord, List.map_map, List.append_assoc]
    rfl
  have h1 : readLE
      (pre ++ (leBytes 8 w.length ++ (((w.map strBytes).map encB).flatten ++ suf)))
      pre.length 8 = some w.length := by
    rw [readLE_exact]
    congr 1
    exact Nat.mod_eq_of_lt (by
      have : (256 : Nat) ^ 8 = 2 ^ 64 := by norm_num
      omega)
  have h2 : decodeStrsAt
      (pre ++ (leBytes 8 w.length ++ (((w.map strBytes).map encB).flatten ++ suf)))
      (pre.length + 8) w.length = some (w.map strBytes) := by
    have h2a := decodeStrsAt_encode (w.map strBytes) (pre ++ leBytes 8 w.length)
      suf (by
        intro t ht
        rcases List.mem_map.mp ht with ⟨f, hf, rfl⟩
        exact hs f hf)
    rw [List.length_map] at h2a
    have hlen : (pre ++ leBytes 8 w.length).length = pre.length + 8 := by
      simp [leBytes_length]
    rw [hlen, List.append_assoc] at h2a
    exact h2a
  rw [hbs]
  simp only [decodeWordAt, h1, h2]

/-! The dict.words and dict.wordsidx files. -/

theorem buildWordsFilesAux_eq (rs : List CsvRow) :
    ∀ idx buf : List Nat,
    buildWordsFilesAux rs idx buf = (idx ++ idxOf rs buf.length, buf ++ blobOf rs) := by
  induction rs with
  | nil =>
    intro idx buf
    simp [buildWordsFilesAux, idxOf, blobOf]
  | cons r rs ih =>
    intro idx buf
    rw [buildWordsFilesAux, ih, idxOf, blobOf]
    simp [List.append_assoc]

theorem wordsFilesSpec (rs : List CsvRow) :
    ∀ (pre : List Nat) (i : Nat) (r : CsvRow),
    rs[i]? = some r →
    pre.length + (blobOf rs).length < 2 ^ 32 →
    (∀ r2 ∈ rs, ∀ f ∈ detailFields r2, (strBytes f).length < 2 ^ 64) →
    ∃ off, readLE (idxOf rs pre.length) (4 * i) 4 = some off ∧
      decodeWordAt (pre ++ blobOf rs) off = some ((detailFields r).map strBytes) := by
  induction rs with
  | nil =>
    intro pre i r hget
    simp at hget
  | cons r0 rs ih =>
    intro pre i r hget hlen hstr
    cases i with
    | zero =>
      rw [List.getElem?_cons_zero, Option.some_inj] at hget
      subst hget
      refine ⟨pre.length, ?_, ?_⟩
      · have h0 : idxOf (r0 ::
            rs) pre.length =
            [] ++ (leBytes 4 pre.length ++
              idxOf rs (pre.length + (encodeWord (detailFields r0)).length)) := by
          simp [idxOf]
        rw [h0]
        have := readLE_exact []
          (idxOf rs (pre.length + (encodeWord (detailFields r0)).length)) 4 pre.length
        simp only [List.length_nil] at this
        rw [Nat.mul_zero, this]
        congr 1
        exact Nat.mod_eq_of_lt (by
          have : (256 : Nat) ^ 4 = 2 ^ 32 := by norm_num
          omega)
      · rw [blobOf]
        exact decodeWordAt_encodeWord (detailFields r0) pre (blobOf rs)
          (by simp [detailFields])
          (fun f hf => hstr r0 (by simp) f hf)
    | succ i =>
      rw [List.getElem?_cons_succ] at hget
      have hshift : readLE (idxOf (r0 :: rs) pre.length) (4 * (i + 1)) 4 =
          readLE (idxOf rs (pre.length + (encodeWord (detailFields r0)).length))
            (4 * i) 4 := by
        rw [idxOf]
        have h4 : 4 * (i + 1) = (leBytes 4 pre.length).length + 4 * i := by
          rw [leBytes_length]
          omega
        rw [h4, readLE_shift]
      have hpre : pre.length + (encodeWord (detailFields r0)).length =
          (pre ++ encodeWord (detailFields r0)).length := by
        simp
      rcases ih (pre ++ encodeWord (detailFields r0)) i r hget
        (by
          rw [blobOf] at hlen
          simp only [List.length_append] at hlen ⊢
          omega)
        (fun r2 h2 f hf => hstr r2 (by simp [h2]) f hf) with ⟨off, hoff, hdec⟩
      refine ⟨off, ?_, ?_⟩
      · rw [hshift, hpre]
        exact hoff
      · rw [blobOf, ← List.append_assoc]
        exact hdec

/-- C1 counterexample: on the two-line input (surface b first, surface a
second) the 0-th little-endian u32 of dict.wordsidx is 0 and deserializing
dict.words there yields the detail record of the a row, which is not the
detail record of raw record 0 of the original (pre-sort) row order, the b
row. -/
theorem words_roundtrip_not_presort :
    readLE (wordsFiles rowsBA).1 0 4 = some 0 ∧
    decodeWordAt (wordsFiles rowsBA).2 0 = some ((detailFields rowA).map strBytes) ∧
    rowsBA[0]? = some rowB ∧
    (detailFields rowA).map strBytes ≠ (detailFields rowB).map strBytes := by
  exact ⟨by decide, by decide, by decide, by decide⟩

/-- C1 amended: for every input whose words blob fits the u32 offsets and
whose field byte lengths fit the u64 bincode framing, decoding the i-th
little-endian u32 of dict.wordsidx and deserializing dict.words at that
byte offset yields exactly the 9-field detail record of the i-th row of the
surface-form-sorted (stable) row order, which build_dict establishes before
writing; not of the original pre-sort order. -/
theorem words_roundtrip_sorted (rows : List CsvRow)
    (hlen : (blobOf (sortRows rows)).length < 2 ^ 32)
    (hstr : ∀ r ∈ sortRows rows, ∀ f ∈ detailFields r, (strBytes f).length < 2 ^ 64)
    (i : Nat) (r : CsvRow) (hget : (sortRows rows)[i]? = some r) :
    ∃ off, readLE (wordsFiles rows).1 (4 * i) 4 = some off ∧
      decodeWordAt (wordsFiles rows).2 off = some ((detailFields r).map strBytes) := by
  have heq := buildWordsFilesAux_eq (sortRows rows) [] []
  rw [wordsFiles, heq]
  simp only [List.nil_append, List.length_nil]
  have hmain := wordsFilesSpec (sortRows rows) [] i r hget
    (by simpa using hlen) hstr
  simpa using hmain

/-- C1 witness: the amended round trip at the concrete two-row input, row
index 0 of the sorted order. -/
theorem words_roundtrip_sorted_witness :
    ∃ off, readLE (wordsFiles rowsBA).1 (4 * 0) 4 = some off ∧
      decodeWordAt (wordsFiles rowsBA).2 off = some ((detailFields rowA).map strBytes) :=
  words_roundtrip_sorted rowsBA (by decide) (by decide) 0 rowA (by decide)

/-! Order facts about the lexicographic byte comparison. -/

theorem char_toNat_inj {a b : Char} (h : a.toNat = b.toNat) : a = b := by
  apply Char.eq_of_val_eq
  apply UInt32.eq_of_val_eq
  exact Fin.ext h

theorem lexLe_refl (a : List Char) : lexLe a a = true := by
  induction a with
  | nil => rfl
  | cons c cs ih => simp [lexLe, ih]

theorem lexLe_total (a b : List Char) : lexLe a b = true ∨ lexLe b a = true := by
  induction a generalizing b with
  | nil => left; rfl
  | cons c cs ih =>
    cases b with
    | nil => right; rfl
    | cons d ds =>
      rcases Nat.lt_trichotomy c.toNat d.toNat with h | h | h
      · left; simp [lexLe, h]
      · rcases ih ds with h2 | h2
        · left; simp [lexLe, h, h2]
        · right; simp [lexLe, h.symm, h2]
      · right; simp [lexLe, h]

theorem lexLe_antisymm {a b : List Char} (h1 : lexLe a b = true)
    (h2 : lexLe b a = true) : a = b := by
  induction a generalizing b with
  | nil =>
    cases b with
    | nil => rfl
    | cons d ds => simp [lexLe] at h2
  | cons c cs ih =>
    cases b with
    | nil => simp [lexLe] at h1
    | cons d ds =>
      rcases Nat.lt_trichotomy c.toNat d.toNat with h | h | h
      · rw [lexLe, if_neg (by omega), if_pos h] at h2
        exact absurd h2 (by simp)
      · have hc : c = d := char_toNat_inj h
        subst hc
        rw [lexLe, if_neg (by omega), if_neg (by omega)] at h1
        rw [lexLe, if_neg (by omega), if_neg (by omega)] at h2
        rw [ih h1 h2]
      · rw [lexLe, if_neg (by omega), if_pos h] at h1
        exact absurd h1 (by simp)

theorem lexLe_trans {a b c : List Char} (h1 : lexLe a b = true)
    (h2 : lexLe b c = true) : lexLe a c = true := by
  induction a generalizing b c with
  | nil => rfl
  | cons x xs ih =>
    cases b with
    | nil => simp [lexLe] at h1
    | cons y ys =>
      cases c with
      | nil => simp [lexLe] at h2
      | cons z zs =>
        rw [lexLe] at h1 h2 ⊢
        rcases Nat.lt_trichotomy x.toNat y.toNat with hxy | hxy | hxy <;>
          rcases Nat.lt_trichotomy y.toNat z.toNat with hyz | hyz | hyz
        all_goals
          first
          | (rw [if_pos (by omega)])
          | (rw [if_neg (by omega), if_pos (by omega)] at h1
             exact absurd h1 (by simp))
          | (rw [if_neg (by omega), if_pos (by omega)] at h2
             exact absurd h2 (by simp))
          | (rw [if_neg (by omega), if_neg (by omega)] at h1 h2 ⊢
             exact ih h1 h2)

/-! Sortedness and lookup characterization of the aggregation map. -/

/-- Strict order on map keys. -/
def keyLt (a b : List Char) : Prop := lexLe a b = true ∧ a ≠ b

theorem keyLt_trans {a b c : List Char} (h1 : keyLt a b) (h2 : keyLt b c) :
    keyLt a c := by
  refine ⟨lexLe_trans h1.1 h2.1, fun he => ?_⟩
  subst he
  exact h1.2 (lexLe_antisymm h1.1 h2.1)

/-- The keys of the association list are strictly increasing, as in a
BTreeMap iteration. -/
def mapSorted (m : List (List Char × List WordEntry)) : Prop :=
  List.Pairwise (fun g h => keyLt g.1 h.1) m

theorem mem_mapInsert {k : List Char} {e : WordEntry}
    {m : List (List Char × List WordEntry)} {g : List Char × List WordEntry}
    (hg : g ∈ mapInsert k e m) : g.1 = k ∨ ∃ g2 ∈ m, g.1 = g2.1 := by
  induction m with
  | nil =>
    simp [mapInsert] at hg
    simp [hg]
  | cons p rest ih =>
    rw [mapInsert] at hg
    split at hg
    · rcases List.mem_cons.mp hg with h | h
      · right
        exact ⟨p, by simp, by simp [h]⟩
      · right
        exact ⟨g, by simp [h], rfl⟩
    · split at hg
      · rcases List.mem_cons.mp hg with h | h
        · left
          simp [h]
        · right
          exact ⟨g, by simp [h], rfl⟩
      · rcases List.mem_cons.mp hg with h | h
        · right
          exact ⟨p, by simp, by simp [h]⟩
        · rcases ih h with h2 | h2
          · exact Or.inl h2
          · rcases h2 with ⟨g2, hg2, he⟩
            exact Or.inr ⟨g2, by simp [hg2], he⟩

theorem mapSorted_mapInsert {m : List (List Char × List WordEntry)}
    (k : List Char) (e : WordEntry) (hs : mapSorted m) :
    mapSorted (mapInsert k e m) := by
  induction m with
  | nil =>
    simp [mapInsert, mapSorted]
  | cons p rest ih =>
    rw [mapSorted, List.pairwise_cons] at hs
    rcases hs with ⟨hhead, hrest⟩
    rw [mapInsert]
    split
    · rw [mapSorted, List.pairwise_cons]
      exact ⟨hhead, hrest⟩
    · split
      · rename_i hne hle
        rw [mapSorted, List.pairwise_cons]
        constructor
        · intro g hg
          rcases List.mem_cons.mp hg with h | h
          · rw [h]
            exact ⟨hle, hne⟩
          · exact keyLt_trans ⟨hle, hne⟩ (hhead g h)
        · rw [List.pairwise_cons]
          exact ⟨hhead, hrest⟩
      · rename_i hne hnle
        rcases lexLe_total k p.1 with h | h
        · exact absurd h hnle
        · rw [mapSorted, List.pairwise_cons]
          constructor
          · intro g hg
            rcases mem_mapInsert hg with h2 | h2
            · rw [h2]
              exact ⟨h, fun he => hne he.symm⟩
            · rcases h2 with ⟨g2, hg2, he⟩
              have hlt := hhead g2 hg2
              rw [← he] at hlt
              exact hlt
          · exact ih hrest

theorem mapLookup_eq_nil {k : List Char} {m : List (List Char × List WordEntry)}
    (h : ∀ g ∈ m, g.1 ≠ k) : mapLookup k m = [] := by
  induction m with
  | nil => rfl
  | cons p rest ih =>
    rw [mapLookup]
    rw [if_neg (fun he => h p (by simp) he.symm)]
    exact ih (fun g hg => h g (by simp [hg]))

theorem mapLookup_mapInsert_self {m : List (List Char × List WordEntry)}
    (hs : mapSorted m) (k : List Char) (e : WordEntry) :
    mapLookup k (mapInsert k e m) = mapLookup k m ++ [e] := by
  induction m with
  | nil =>
    simp [mapInsert, mapLookup]
  | cons p rest ih =>
    rw [mapSorted, List.pairwise_cons] at hs
    rcases hs with ⟨hhead, hrest⟩
    rw [mapInsert]
    split
    · rename_i heq
      rw [mapLookup, if_pos heq, mapLookup, if_pos heq]
    · split
      · rename_i hne hle
        rw [mapLookup, if_pos rfl]
        have hnil : mapLookup k (p :: rest) = [] := by
          apply mapLookup_eq_nil
          intro g hg
          rcases List.mem_cons.mp hg with h | h
          · rw [h]
            exact fun he => hne he.symm
          · intro he
            have hlt := hhead g h
            rw [he] at hlt
            exact hne (lexLe_antisymm hle hlt.1)
        rw [hnil]
        rfl
      · rename_i hne hnle
        rw [mapLookup, if_neg (fun he => hne he), mapLookup,
          if_neg (fun he => hne he)]
        exact ih hrest

theorem mapLookup_mapInsert_ne {m : List (List Char × List WordEntry)}
    {k k2 : List Char} (e : WordEntry) (h : k2 ≠ k) :
    mapLookup k2 (mapInsert k e m) = mapLookup k2 m := by
  induction m with
  | nil =>
    simp [mapInsert, mapLookup, if_neg h]
  | cons p rest ih =>
    rw [mapInsert]
    split
    · rename_i heq
      subst heq
      rw [mapLookup, if_neg h, mapLookup, if_neg h]
    · split
      · simp only [mapLookup, if_neg h]
      · rw [mapLookup, mapLookup]
        split
        · rfl
        · exact ih

/-- The entries that the insertion loop adds under a given key when it
starts at row id i: one entry per unskipped row with that surface form,
carrying its enumerate index. -/
def entriesFor (k : List Char) : Nat → List CsvRow → List WordEntry
  | _, [] => []
  | i, r :: rs =>
    (if SKIP_WORDS.contains r.surface_form = false ∧ r.surface_form = k
     then [mkEntry i r] else []) ++ entriesFor k (i + 1) rs

theorem buildMapAux_sorted (rs : List CsvRow) :
    ∀ (i : Nat) (m : List (List Char × List WordEntry)), mapSorted m →
    mapSorted (buildMapAux i rs m) := by
  induction rs with
  | nil =>
    intro i m hs
    exact hs
  | cons r rs ih =>
    intro i m hs
    rw [buildMapAux]
    split
    · exact ih _ _ hs
    · exact ih _ _ (mapSorted_mapInsert _ _ hs)

theorem mapLookup_buildMapAux (k : List Char) (rs : List CsvRow) :
    ∀ (i : Nat) (m : List (List Char × List WordEntry)), mapSorted m →
    mapLookup k (buildMapAux i rs m) = mapLookup k m ++ entriesFor k i rs := by
  induction rs with
  | nil =>
    intro i m hs
    simp [buildMapAux, entriesFor]
  | cons r rs ih =>
    intro i m hs
    rw [buildMapAux, entriesFor]
    split
    · rename_i hskip
      have hcond : ¬(SKIP_WORDS.contains r.surface_form = false ∧
          r.surface_form = k) := by
        intro hc
        rw [hskip] at hc
        simpa using hc.1
      rw [ih _ _ hs, if_neg hcond]
      rfl
    · rename_i hskip
      rcases Classical.em (r.surface_form = k) with hk | hk
      · rw [if_pos ⟨by simpa using hskip, hk⟩]
        rw [ih _ _ (mapSorted_mapInsert _ _ hs)]
        rw [hk, mapLookup_mapInsert_self hs]
        simp [List.append_assoc]
      · rw [if_neg (by simp [hk])]
        rw [ih _ _ (mapSorted_mapInsert _ _ hs)]
        rw [mapLookup_mapInsert_ne _ (fun he => hk he.symm)]
        rfl

theorem word_entry_map_lookup (rows : List CsvRow) (k : List Char) :
    mapLookup k (word_entry_map rows) = entriesFor k 0 (sortRows rows) := by
  rw [word_entry_map, mapLookup_buildMapAux k _ 0 [] List.Pairwise.nil]
  rfl

theorem word_entry_map_sorted (rows : List CsvRow) :
    mapSorted (word_entry_map rows) :=
  buildMapAux_sorted _ 0 [] List.Pairwise.nil

theorem mem_entriesFor {k : List Char} {e : WordEntry} :
    ∀ {i : Nat} {rs : List CsvRow}, e ∈ entriesFor k i rs →
    ∃ j r, rs[j]? = some r ∧ e = mkEntry (i + j) r ∧ r.surface_form = k ∧
      SKIP_WORDS.contains r.surface_form = false := by
  intro i rs
  induction rs generalizing i with
  | nil => simp [entriesFor]
  | cons r rs ih =>
    intro he
    rw [entriesFor] at he
    rcases List.mem_append.mp he with h | h
    · split at h
      · rename_i hc
        refine ⟨0, r, by simp, ?_, hc.2, hc.1⟩
        simp at h
        simpa using h
      · simp at h
    · rcases ih h with ⟨j, r2, hget, hmk, hsurf, hskip⟩
      refine ⟨j + 1, r2, by simpa using hget, ?_, hsurf, hskip⟩
      rw [hmk]
      congr 1
      omega

/-- C2 counterexample: on the two-row input (surface b first, surface a
second) the Entry stored under surface form a carries sequence identifier 0,
but in the concatenated pre-sort record list the record at index 0 is the b
row; the a row sits at index 1. The identifier is therefore not the pre-sort
row index. -/
theorem entry_id_not_presort_index :
    mapLookup (strOf ("a")) (word_entry_map rowsBA) = [mkEntry 0 rowA] ∧
    (mkEntry 0 rowA).word_id = (0, true) ∧
    rowsBA[0]? = some rowB ∧
    rowB.surface_form ≠ strOf ("a") := by
  exact ⟨by decide, by decide, by decide, by decide⟩

/-- C2 amended: each Entry's sequence identifier (the u32 of its WordId,
with the system-provided flag set) equals the record's 0-based row index in
the lexicographically sorted (stable) record list that build_dict
enumerates — an index derived from the sorted order, not the pre-sort
concatenated order. -/
theorem entry_ids_are_sorted_indices (rows : List CsvRow)
    (hsize : (sortRows rows).length ≤ 2 ^ 32)
    (k : List Char) (e : WordEntry)
    (he : e ∈ mapLookup k (word_entry_map rows)) :
    ∃ j r, (sortRows rows)[j]? = some r ∧ e.word_id = (j, true) ∧
      r.surface_form = k ∧ e = mkEntry j r := by
  rw [word_entry_map_lookup] at he
  rcases mem_entriesFor he with ⟨j, r, hget, hmk, hsurf, hskip⟩
  have hj : j < (sortRows rows).length := by
    by_contra hc
    rw [List.getElem?_eq_none (by omega)] at hget
    exact Option.noConfusion hget
  rw [Nat.zero_add] at hmk
  refine ⟨j, r, hget, ?_, hsurf, hmk⟩
  rw [hmk]
  show (natAsU32 j, true) = (j, true)
  rw [natAsU32_of_lt (by omega)]

/-- C2 witness: the amended statement at the concrete two-row input, for
the entry stored under surface form a. -/
theorem entry_ids_are_sorted_indices_witness :
    ∃ j r, (sortRows rowsBA)[j]? = some r ∧ (mkEntry 0 rowA).word_id = (j, true) ∧
      r.surface_form = strOf ("a") ∧ mkEntry 0 rowA = mkEntry j r :=
  entry_ids_are_sorted_indices rowsBA (by decide) (strOf ("a")) (mkEntry 0 rowA)
    (by decide)

/-! Counting the entries written to dict.vals. -/

theorem valsEntries_cons (p : List Char × List WordEntry)
    (m : List (List Char × List WordEntry)) :
    valsEntries (p :: m) = p.2 ++ valsEntries m := rfl

theorem valsEntries_mapInsert (k : List Char) (e : WordEntry)
    (m : List (List Char × List WordEntry)) :
    (valsEntries (mapInsert k e m)).length = (valsEntries m).length + 1 := by
  induction m with
  | nil => rfl
  | cons p rest ih =>
    rw [mapInsert]
    split
    · simp only [valsEntries_cons, List.length_append, List.length_cons,
        List.length_nil]
      omega
    · split
      · simp only [valsEntries_cons, List.length_append, List.length_cons,
          List.length_nil]
        omega
      · simp only [valsEntries_cons, List.length_append] at ih ⊢
        omega

theorem valsEntries_buildMapAux (rs : List CsvRow) :
    ∀ (i : Nat) (m : List (List Char × List WordEntry)),
    (valsEntries (buildMapAux i rs m)).length =
      (valsEntries m).length +
        rs.countP (fun r => !SKIP_WORDS.contains r.surface_form) := by
  induction rs with
  | nil =>
    intro i m
    simp [buildMapAux]
  | cons r rs ih =>
    intro i m
    rw [buildMapAux, List.countP_cons]
    split
    · rename_i hskip
      rw [ih]
      have hp : (!SKIP_WORDS.contains r.surface_form) = false := by
        rw [hskip]
        rfl
      rw [hp]
      simp
    · rename_i hskip
      have hb : SKIP_WORDS.contains r.surface_form = false := by
        cases h : SKIP_WORDS.contains r.surface_form
        · rfl
        · exact absurd h hskip
      have hp : (!SKIP_WORDS.contains r.surface_form) = true := by
        rw [hb]
        rfl
      rw [ih, valsEntries_mapInsert, hp]
      simp
      omega

theorem countP_not_add {α : Type} (p : α → Bool) (l : List α) :
    l.countP (fun a => !p a) + l.countP p = l.length := by
  induction l with
  | nil => rfl
  | cons a l ih =>
    rw [List.countP_cons, List.countP_cons, List.length_cons]
    cases h : p a <;> simp [h] <;> omega

theorem entriesFor_skip {k : List Char} (hk : SKIP_WORDS.contains k = true) :
    ∀ (i : Nat) (rs : List CsvRow), entriesFor k i rs = [] := by
  intro i rs
  induction rs generalizing i with
  | nil => rfl
  | cons r rs ih =>
    rw [entriesFor, ih]
    rw [if_neg (fun hc => by
      rw [hc.2] at hc
      rw [hk] at hc
      exact Bool.noConfusion hc.1)]
    rfl

/-- C8: the number of Entry records written to dict.vals equals the total
number of raw records minus the number of records whose surface form is in
the fixed two-element skip list, and a skip-listed surface form owns no
group in the mapping. -/
theorem vals_count (rows : List CsvRow) :
    (valsEntries (word_entry_map rows)).length =
      rows.length -
        (rows.filter (fun r => SKIP_WORDS.contains r.surface_form)).length ∧
    ∀ k, SKIP_WORDS.contains k = true →
      mapLookup k (word_entry_map rows) = [] := by
  constructor
  · rw [word_entry_map, valsEntries_buildMapAux]
    have hperm : (sortRows rows).Perm rows := List.perm_insertionSort rowLe rows
    rw [hperm.countP_eq]
    rw [← List.countP_eq_length_filter]
    have hadd := countP_not_add
      (fun r => SKIP_WORDS.contains r.surface_form) rows
    simp only [valsEntries]
    simp only [List.map_nil, List.flatten_nil, List.length_nil]
    omega
  · intro k hk
    rw [word_entry_map_lookup, entriesFor_skip hk]

/-- C8 witness: the count equality and the empty skip-list group at a
concrete three-row input containing one skip-listed record. -/
theorem vals_count_witness :
    ((valsEntries (word_entry_map [rowB, rowSkip, rowA])).length =
      [rowB, rowSkip, rowA].length -
        ([rowB, rowSkip, rowA].filter
          (fun r => SKIP_WORDS.contains r.surface_form)).length) ∧
    mapLookup (strOf ("カブシキガイシャ")) (word_entry_map [rowB, rowSkip, rowA]) = [] :=
  ⟨(vals_count [rowB, rowSkip, rowA]).1,
   (vals_count [rowB, rowSkip, rowA]).2 (strOf ("カブシキガイシャ")) (by decide)⟩

/-! The keyset of the double-array builder: id packing and the 31-entry
bound. -/

/-- Sum of the sizes of the first i groups of the map, i.e. the number of
entries assigned to the keys that come before position i. -/
def sumBefore (m : List (List Char × List WordEntry)) (i : Nat) : Nat :=
  ((m.take i).map (fun g => g.2.length)).sum

/-- Total number of entries of the map. -/
def totalLen (m : List (List Char × List WordEntry)) : Nat :=
  (m.map (fun g => g.2.length)).sum

theorem sumBefore_zero (m : List (List Char × List WordEntry)) :
    sumBefore m 0 = 0 := rfl

theorem sumBefore_cons_succ (p : List Char × List WordEntry)
    (m : List (List Char × List WordEntry)) (i : Nat) :
    sumBefore (p :: m) (i + 1) = p.2.length + sumBefore m i := by
  simp [sumBefore]

theorem buildKeysetAux_ok (m : List (List Char × List WordEntry)) :
    ∀ (id : Nat) (ks : List (List Nat × Nat)),
    buildKeysetAux m id = .ok ks →
    (id + totalLen m) * 32 < 2 ^ 32 →
    ks.length = m.length ∧
    ∀ i g, m[i]? = some g →
      ks[i]? = some (strBytes g.1,
        ((id + sumBefore m i) <<< 5) ||| g.2.length) := by
  induction m with
  | nil =>
    intro id ks hok hbound
    rw [buildKeysetAux] at hok
    cases hok
    constructor
    · rfl
    · intro i g hg
      simp at hg
  | cons p rest ih =>
    intro id ks hok hbound
    have htot : totalLen (p :: rest) = p.2.length + totalLen rest := by
      simp [totalLen]
    have hlen32 : p.2.length < 2 ^ 32 := by
      rw [htot] at hbound
      omega
    have hid32 : id + p.2.length < 2 ^ 32 := by
      rw [htot] at hbound
      omega
    rw [buildKeysetAux] at hok
    rw [show natAsU32 p.2.length = p.2.length from natAsU32_of_lt hlen32] at hok
    split at hok
    · rename_i hlt
      rw [show natAsU32 (id + p.2.length) = id + p.2.length from
        natAsU32_of_lt hid32] at hok
      split at hok
      · rename_i ks2 hks2
        rw [Outcome.ok.injEq] at hok
        subst hok
        have hrec := ih (id + p.2.length) ks2 hks2 (by
          rw [htot] at hbound
          omega)
        constructor
        · simp [hrec.1]
        · intro i g hg
          cases i with
          | zero =>
            rw [List.getElem?_cons_zero, Option.some_inj] at hg
            subst hg
            rw [List.getElem?_cons_zero]
            have hsh : natAsU32 (id <<< 5) = id <<< 5 := by
              apply natAsU32_of_lt
              rw [Nat.shiftLeft_eq]
              rw [htot] at hbound
              have : id * 2 ^ 5 ≤ (id + (p.2.length + totalLen rest)) * 32 := by
                have : (2 : Nat) ^ 5 = 32 := by norm_num
                rw [this]
                exact Nat.mul_le_mul_right 32 (by omega)
              omega
            rw [hsh, sumBefore_zero, Nat.add_zero]
          | succ i =>
            rw [List.getElem?_cons_succ] at hg
            rw [List.getElem?_cons_succ]
            have := hrec.2 i g hg
            rw [this, sumBefore_cons_succ]
            congr 3
            omega
      · exact Outcome.noConfusion hok
      · exact Outcome.noConfusion hok
    · exact Outcome.noConfusion hok

/-- C4: when the keyset construction succeeds (and the ids do not overflow
the u32 shift), the 32-bit value paired with the i-th key equals
(base_entry_id <<< 5) ||| entry_count, where entry_count is the size of
the i-th group and base_entry_id is the running total of entries of all
earlier groups; the map keys are strictly increasing in the lexicographic
byte order, so earlier groups are exactly the lexicographically smaller
surface forms. -/
theorem keyset_packing (rows : List CsvRow) (ks : List (List Nat × Nat))
    (hok : buildKeyset (word_entry_map rows) = .ok ks)
    (hbound : totalLen (word_entry_map rows) * 32 < 2 ^ 32) :
    ks.length = (word_entry_map rows).length ∧
    (∀ i g, (word_entry_map rows)[i]? = some g →
      ks[i]? = some (strBytes g.1,
        ((sumBefore (word_entry_map rows) i) <<< 5) ||| g.2.length)) ∧
    mapSorted (word_entry_map rows) := by
  have h := buildKeysetAux_ok (word_entry_map rows) 0 ks hok (by omega)
  refine ⟨h.1, ?_, word_entry_map_sorted rows⟩
  intro i g hg
  have := h.2 i g hg
  rw [Nat.zero_add] at this
  exact this

/-- C4 witness: the packed values of the two-key concrete input, through
the packing theorem: the group of a starts at base 0 with one entry and the
group of b starts at base 1 with one entry. -/
theorem keyset_packing_witness :
    [(strBytes (strOf ("a")), 1), (strBytes (strOf ("b")), 33)][0]? =
      some (strBytes (strOf ("a")),
        ((sumBefore (word_entry_map rowsBA) 0) <<< 5) |||
          [mkEntry 0 rowA].length) :=
  (keyset_packing rowsBA [(strBytes (strOf ("a")), 1), (strBytes (strOf ("b")), 33)]
    (by decide) (by decide)).2.1 0 (strOf ("a"), [mkEntry 0 rowA]) (by decide)

theorem buildKeysetAux_ok_of_small (m : List (List Char × List WordEntry))
    (h : ∀ g ∈ m, natAsU32 g.2.length < 32) :
    ∀ id : Nat, ∃ ks, buildKeysetAux m id = .ok ks := by
  induction m with
  | nil =>
    intro id
    exact ⟨[], rfl⟩
  | cons p rest ih =>
    intro id
    rcases ih (fun g hg => h g (by simp [hg])) (natAsU32 (id + natAsU32 p.2.length))
      with ⟨ks, hks⟩
    refine ⟨(strBytes p.1, natAsU32 (id <<< 5) ||| natAsU32 p.2.length) :: ks, ?_⟩
    rw [buildKeysetAux, if_pos (h p (by simp)), hks]

theorem buildKeysetAux_fault_of_large (m : List (List Char × List WordEntry))
    (h : ∃ g ∈ m, 32 ≤ natAsU32 g.2.length) :
    ∀ id : Nat, ∃ msg, buildKeysetAux m id = .fault msg := by
  induction m with
  | nil =>
    rcases h with ⟨g, hg, _⟩
    exact absurd hg (by simp)
  | cons p rest ih =>
    intro id
    rcases Classical.em (natAsU32 p.2.length < 32) with hlt | hlt
    · rcases h with ⟨g, hg, hge⟩
      rcases List.mem_cons.mp hg with he | he
      · subst he
        omega
      · rcases ih ⟨g, he, hge⟩ (natAsU32 (id + natAsU32 p.2.length)) with ⟨msg, hmsg⟩
        refine ⟨msg, ?_⟩
        rw [buildKeysetAux, if_pos hlt, hmsg]
    · exact ⟨("assertion failed: too long"), by rw [buildKeysetAux, if_neg hlt]⟩

/-- C7: for any input whose groups are smaller than 2^32 (so that the u32
length cast is lossless), the keyset construction succeeds when every
surface form has at most 31 entries — in particular a group of exactly 31
compiles — and aborts with a fatal assertion fault, not a recoverable error
value, as soon as some surface form has 32 or more entries. -/
theorem keyset_group_bound (rows : List CsvRow)
    (hsmall : ∀ g ∈ word_entry_map rows, g.2.length < 2 ^ 32) :
    ((∀ g ∈ word_entry_map rows, g.2.length ≤ 31) →
      ∃ ks, buildKeyset (word_entry_map rows) = .ok ks) ∧
    ((∃ g ∈ word_entry_map rows, 32 ≤ g.2.length) →
      ∃ msg, buildKeyset (word_entry_map rows) = .fault msg) := by
  constructor
  · intro hle
    apply buildKeysetAux_ok_of_small
    intro g hg
    rw [natAsU32_of_lt (hsmall g hg)]
    have := hle g hg
    omega
  · intro hge
    apply buildKeysetAux_fault_of_large
    rcases hge with ⟨g, hg, hlen⟩
    refine ⟨g, hg, ?_⟩
    rw [natAsU32_of_lt (hsmall g hg)]
    exact hlen

/-- C7 witness: 31 identical-surface rows compile and 32 do not, through
the bound theorem. -/
theorem keyset_group_bound_witness :
    (∃ ks, buildKeyset (word_entry_map (List.replicate 31 rowA)) = .ok ks) ∧
    (∃ msg, buildKeyset (word_entry_map (List.replicate 32 rowA)) = .fault msg) :=
  ⟨(keyset_group_bound (List.replicate 31 rowA) (by decide)).1 (by decide),
   (keyset_group_bound (List.replicate 32 rowA) (by decide)).2 (by decide)⟩

/-! The dense cost-matrix array. -/

/-- The matrix line of a sparse (forward_id, backward_id, cost) triple. -/
def entryLine (t : Int × Int × Int) : List Int := [t.1, t.2.1, t.2.2]

/-- The slot index the data-line loop writes for a triple, in wrapping u32
arithmetic, as in 2 + (backward_id + forward_id * backward_size). -/
def mtxIdx (bsize : Nat) (t : Int × Int × Int) : Nat :=
  2 + natAsU32 (intAsU32 t.2.1 + intAsU32 t.1 * bsize)

theorem rowmajor_lt {b f B F : Nat} (hb : b < B) (hf : f < F) :
    b + f * B < F * B := by
  have h1 : f + 1 ≤ F := hf
  have h2 : (f + 1) * B ≤ F * B := Nat.mul_le_mul_right B h1
  have h3 : f * B + B = (f + 1) * B := by ring
  omega

theorem rowmajor_inj {b1 f1 b2 f2 B : Nat} (hb1 : b1 < B) (hb2 : b2 < B)
    (h : b1 + f1 * B = b2 + f2 * B) : b1 = b2 ∧ f1 = f2 := by
  have hB : 0 < B := by omega
  have h1 : (b1 + f1 * B) / B = f1 := by
    rw [Nat.add_mul_div_right _ _ hB, Nat.div_eq_of_lt hb1]
    omega
  have h2 : (b2 + f2 * B) / B = f2 := by
    rw [Nat.add_mul_div_right _ _ hB, Nat.div_eq_of_lt hb2]
    omega
  have hf : f1 = f2 := by rw [← h1, ← h2, h]
  subst hf
  exact ⟨by omega, rfl⟩

theorem matrixLoop_ok_general (bsize : Nat) (ls : List (List Int)) :
    ∀ costs cs : List Int, matrixLoop bsize ls costs = .ok cs →
    cs.length = costs.length ∧
    (∀ j : Nat,
      (∀ l ∈ ls, ∀ g0 g1 : Int, l[0]? = some g0 → l[1]? = some g1 →
        2 + natAsU32 (intAsU32 g1 + intAsU32 g0 * bsize) ≠ j) →
      cs[j]? = costs[j]?) := by
  induction ls with
  | nil =>
    intro costs cs hok
    rw [matrixLoop] at hok
    cases hok
    exact ⟨rfl, fun j hj => rfl⟩
  | cons l ls ih =>
    intro costs cs hok
    rw [matrixLoop] at hok
    cases hg0 : l[0]? with
    | none =>
      rw [hg0] at hok
      exact Outcome.noConfusion hok
    | some g0 =>
    rw [hg0] at hok
    cases hg1 : l[1]? with
    | none =>
      rw [hg1] at hok
      exact Outcome.noConfusion hok
    | some g1 =>
    rw [hg1] at hok
    cases hg2 : l[2]? with
    | none =>
      rw [hg2] at hok
      exact Outcome.noConfusion hok
    | some g2 =>
    rw [hg2] at hok
    simp only at hok
    split at hok
    · rename_i hlt
      rcases ih _ _ hok with ⟨hlen, huntouched⟩
      refine ⟨by rw [hlen, List.length_set], ?_⟩
      intro j hj
      rw [huntouched j (fun l2 h2 g0b g1b e0 e1 =>
        hj l2 (by simp [h2]) g0b g1b e0 e1)]
      exact List.getElem?_set_ne (hj l (by simp) g0 g1 hg0 hg1)
    · exact Outcome.noConfusion hok

theorem matrixLoop_ok_writes (bsize : Nat) (entries : List (Int × Int × Int)) :
    ∀ costs cs : List Int,
    matrixLoop bsize (entries.map entryLine) costs = .ok cs →
    List.Pairwise (fun t u => mtxIdx bsize t ≠ mtxIdx bsize u) entries →
    ∀ t ∈ entries, cs[mtxIdx bsize t]? = some (toI16 (intAsU16 t.2.2)) := by
  induction entries with
  | nil =>
    intro costs cs hok hpair t ht
    simp at ht
  | cons t0 rest ih =>
    intro costs cs hok hpair t ht
    rw [List.pairwise_cons] at hpair
    rcases hpair with ⟨hhead, hrest⟩
    rw [List.map_cons, matrixLoop] at hok
    simp only [entryLine, List.getElem?_cons_zero, List.getElem?_cons_succ] at hok
    split at hok
    · rename_i hlt
      rcases List.mem_cons.mp ht with he | he
      · subst he
        rcases matrixLoop_ok_general bsize (rest.map entryLine) _ _ hok
          with ⟨hlen, huntouched⟩
        have hslot : cs[mtxIdx bsize t]? =
            (costs.set (mtxIdx bsize t) (toI16 (intAsU16 t.2.2)))[mtxIdx bsize t]? := by
          apply huntouched
          intro l2 hl2 g0 g1 e0 e1
          rcases List.mem_map.mp hl2 with ⟨u, hu, hle⟩
          rw [← hle] at e0 e1
          simp only [entryLine, List.getElem?_cons_zero, List.getElem?_cons_succ,
            Option.some_inj] at e0 e1
          subst e0
          subst e1
          exact fun he2 => hhead u hu he2.symm
        rw [hslot]
        exact List.getElem?_set_self (by
          have : mtxIdx bsize t = 2 + natAsU32 (intAsU32 t.2.1 + intAsU32 t.1 * bsize) := rfl
          omega)
      · exact ih _ _ hok hrest t he
    · exact Outcome.noConfusion hok

theorem matrixLoop_ok_of_bounds (bsize : Nat) (entries : List (Int × Int × Int)) :
    ∀ costs : List Int, (∀ t ∈ entries, mtxIdx bsize t < costs.length) →
    ∃ cs, matrixLoop bsize (entries.map entryLine) costs = .ok cs := by
  induction entries with
  | nil =>
    intro costs hb
    exact ⟨costs, rfl⟩
  | cons t rest ih =>
    intro costs hb
    rcases ih (costs.set (mtxIdx bsize t) (toI16 (intAsU16 t.2.2)))
      (fun u hu => by
        rw [List.length_set]
        exact hb u (by simp [hu])) with ⟨cs, hcs⟩
    refine ⟨cs, ?_⟩
    rw [List.map_cons, matrixLoop]
    simp only [entryLine, List.getElem?_cons_zero, List.getElem?_cons_succ]
    have hidx : 2 + natAsU32 (intAsU32 t.2.1 + intAsU32 t.1 * bsize) <
        costs.length := hb t (by simp)
    rw [if_pos hidx]
    exact hcs

theorem processMatrixLines_cons (h0 h1 : Int) (hr : List Int)
    (data : List (List Int)) :
    processMatrixLines ((h0 :: h1 :: hr) :: data) =
      matrixLoop (intAsU32 h1) data
        (((List.replicate (2 + natAsU32 (intAsU32 h0 * intAsU32 h1))
          (32767 : Int)).set 0 (natAsI16 (intAsU32 h0))).set 1
          (natAsI16 (intAsU32 h1))) := by
  simp only [processMatrixLines, List.getElem?_cons_zero, List.getElem?_cons_succ]

/-- C5: for a sparse matrix input with header (forward_size, backward_size)
and well-formed data triples (ids in range, one line per pair, costs
representable in i16), the compiled array has length
2 + forward_size * backward_size with the header in slots 0 and 1, each
triple's cost sits at index 2 + backward_id + forward_id * backward_size,
and every slot of an absent pair holds the i16 maximum sentinel 32767. -/
theorem cost_matrix_dense (fs bs : Int) (hrest : List Int)
    (entries : List (Int × Int × Int))
    (hfs : 0 ≤ fs) (hfs2 : fs < 32768) (hbs : 0 ≤ bs) (hbs2 : bs < 32768)
    (hr : ∀ t ∈ entries, 0 ≤ t.1 ∧ t.1 < fs ∧ 0 ≤ t.2.1 ∧ t.2.1 < bs ∧
      -32768 ≤ t.2.2 ∧ t.2.2 < 32768)
    (hdist : List.Pairwise (fun t u => ¬(t.1 = u.1 ∧ t.2.1 = u.2.1)) entries) :
    ∃ costs,
      processMatrixLines ((fs :: bs :: hrest) :: entries.map entryLine) =
        .ok costs ∧
      costs.length = 2 + fs.toNat * bs.toNat ∧
      costs[0]? = some fs ∧
      costs[1]? = some bs ∧
      (∀ t ∈ entries,
        costs[2 + t.2.1.toNat + t.1.toNat * bs.toNat]? = some t.2.2) ∧
      (∀ f b : Nat, f < fs.toNat → b < bs.toNat →
        (∀ t ∈ entries, ¬(t.1.toNat = f ∧ t.2.1.toNat = b)) →
        costs[2 + b + f * bs.toNat]? = some 32767) := by
  have hfs32 : intAsU32 fs = fs.toNat := intAsU32_of_range hfs (by omega)
  have hbs32 : intAsU32 bs = bs.toNat := intAsU32_of_range hbs (by omega)
  have hFB : fs.toNat * bs.toNat < 2 ^ 32 := by
    have h1 : fs.toNat ≤ 32767 := by omega
    have h2 : bs.toNat ≤ 32767 := by omega
    have := Nat.mul_le_mul h1 h2
    omega
  have hnat : natAsU32 (fs.toNat * bs.toNat) = fs.toNat * bs.toNat :=
    natAsU32_of_lt hFB
  have hidx : ∀ t ∈ entries, mtxIdx bs.toNat t =
      2 + (t.2.1.toNat + t.1.toNat * bs.toNat) := by
    intro t ht
    rcases hr t ht with ⟨h1, h2, h3, h4, _, _⟩
    rw [mtxIdx, intAsU32_of_range h3 (by omega), intAsU32_of_range h1 (by omega)]
    rw [natAsU32_of_lt]
    have hlt := rowmajor_lt (show t.2.1.toNat < bs.toNat by omega)
      (show t.1.toNat < fs.toNat by omega)
    omega
  have hinitlen :
      (((List.replicate (2 + fs.toNat * bs.toNat) (32767 : Int)).set 0
        (natAsI16 fs.toNat)).set 1 (natAsI16 bs.toNat)).length =
      2 + fs.toNat * bs.toNat := by
    rw [List.length_set, List.length_set, List.length_replicate]
  have hbound : ∀ t ∈ entries, mtxIdx bs.toNat t <
      (((List.replicate (2 + fs.toNat * bs.toNat) (32767 : Int)).set 0
        (natAsI16 fs.toNat)).set 1 (natAsI16 bs.toNat)).length := by
    intro t ht
    rw [hinitlen, hidx t ht]
    rcases hr t ht with ⟨h1, h2, h3, h4, _, _⟩
    have hlt := rowmajor_lt (show t.2.1.toNat < bs.toNat by omega)
      (show t.1.toNat < fs.toNat by omega)
    omega
  rcases matrixLoop_ok_of_bounds bs.toNat entries _ hbound with ⟨cs, hok⟩
  rcases matrixLoop_ok_general bs.toNat (entries.map entryLine) _ cs hok
    with ⟨hlen, huntouched⟩
  have hpair : List.Pairwise
      (fun t u => mtxIdx bs.toNat t ≠ mtxIdx bs.toNat u) entries := by
    refine hdist.imp_of_mem ?_
    intro t u ht hu hne hip
    rw [hidx t ht, hidx u hu] at hip
    rcases hr t ht with ⟨t1, t2, t3, t4, _, _⟩
    rcases hr u hu with ⟨u1, u2, u3, u4, _, _⟩
    rcases @rowmajor_inj t.2.1.toNat t.1.toNat u.2.1.toNat u.1.toNat bs.toNat
      (by omega) (by omega) (by omega) with ⟨hbeq, hfeq⟩
    exact hne ⟨by omega, by omega⟩
  have hwrites := matrixLoop_ok_writes bs.toNat entries _ cs hok hpair
  refine ⟨cs, ?_, ?_, ?_, ?_, ?_, ?_⟩
  · rw [processMatrixLines_cons, hfs32, hbs32, hnat]
    exact hok
  · rw [hlen, hinitlen]
  · rw [huntouched 0 (fun l hl g0 g1 e0 e1 => by omega)]
    rw [List.getElem?_set_ne (show (1 : Nat) ≠ 0 by omega)]
    rw [List.getElem?_set_self (by rw [List.length_replicate]; omega)]
    rw [natAsI16, toI16_of_lt (by omega), Int.toNat_of_nonneg hfs]
  · rw [huntouched 1 (fun l hl g0 g1 e0 e1 => by omega)]
    rw [List.getElem?_set_self (by rw [List.length_set, List.length_replicate]; omega)]
    rw [natAsI16, toI16_of_lt (by omega), Int.toNat_of_nonneg hbs]
  · intro t ht
    have hw := hwrites t ht
    rw [hidx t ht] at hw
    rcases hr t ht with ⟨_, _, _, _, hc1, hc2⟩
    rw [toI16_intAsU16_of_range hc1 hc2] at hw
    rw [show 2 + t.2.1.toNat + t.1.toNat * bs.toNat =
      2 + (t.2.1.toNat + t.1.toNat * bs.toNat) from by omega]
    exact hw
  · intro f b hf hb habsent
    have hju : cs[2 + b + f * bs.toNat]? =
        (((List.replicate (2 + fs.toNat * bs.toNat) (32767 : Int)).set 0
          (natAsI16 fs.toNat)).set 1
          (natAsI16 bs.toNat))[2 + b + f * bs.toNat]? := by
      apply huntouched
      intro l hl g0 g1 e0 e1
      rcases List.mem_map.mp hl with ⟨u, hu, hle⟩
      rw [← hle] at e0 e1
      simp only [entryLine, List.getElem?_cons_zero, List.getElem?_cons_succ,
        Option.some_inj] at e0 e1
      subst e0
      subst e1
      have := hidx u hu
      rw [mtxIdx] at this
      rw [this]
      intro hip
      rcases hr u hu with ⟨u1, u2, u3, u4, _, _⟩
      rcases @rowmajor_inj u.2.1.toNat u.1.toNat b f bs.toNat
        (by omega) hb (by omega) with ⟨hbeq, hfeq⟩
      exact habsent u hu ⟨by omega, by omega⟩
    rw [hju]
    rw [List.getElem?_set_ne (by omega), List.getElem?_set_ne (by omega)]
    rw [List.getElem?_replicate]
    rw [if_pos (by
      have := rowmajor_lt hb hf
      omega)]

/-- C5 witness: the dense-matrix theorem at the header (2, 2) with the
single triple (0, 1, 5). -/
theorem cost_matrix_dense_witness :
    ∃ costs,
      processMatrixLines (((2 : Int) :: (2 : Int) :: ([] : List Int)) ::
        [((0 : Int), (1 : Int), (5 : Int))].map entryLine) = .ok costs ∧
      costs.length = 2 + (2 : Int).toNat * (2 : Int).toNat ∧
      costs[0]? = some 2 ∧
      costs[1]? = some 2 ∧
      (∀ t ∈ [((0 : Int), (1 : Int), (5 : Int))],
        costs[2 + t.2.1.toNat + t.1.toNat * (2 : Int).toNat]? = some t.2.2) ∧
      (∀ f b : Nat, f < (2 : Int).toNat → b < (2 : Int).toNat →
        (∀ t ∈ [((0 : Int), (1 : Int), (5 : Int))],
          ¬(t.1.toNat = f ∧ t.2.1.toNat = b)) →
        costs[2 + b + f * (2 : Int).toNat]? = some 32767) :=
  cost_matrix_dense 2 2 [] [(0, 1, 5)] (by decide) (by decide) (by decide)
    (by decide) (by decide) (by simp)

theorem natAsI16_intAsU32_emod (x : Int) :
    natAsI16 (intAsU32 x) % 65536 = x % 65536 := by
  rw [natAsI16, toI16_emod, intAsU32]
  rw [Int.toNat_of_nonneg (Int.emod_nonneg x (by omega))]
  exact Int.emod_emod_of_dvd x ⟨65536, by norm_num⟩

/-- C10: the integer narrowing performed by the builder. Dictionary side:
every stored entry has cost_id equal to its record's left_id reduced mod
2^16 and word_cost congruent to the parsed word_cost mod 2^16 while lying
in the signed 16-bit range (the i32-as-i16 two's-complement truncation),
with no range check. Matrix side: the two header slots hold the header
values narrowed to i16 (congruent mod 2^16, in i16 range), and every
written cost slot holds the i32 cost narrowed through u16 to i16, again
congruent mod 2^16 and in i16 range. -/
theorem narrowing_casts :
    (∀ (rows : List CsvRow) (k : List Char) (e : WordEntry),
      e ∈ mapLookup k (word_entry_map rows) →
      ∃ (j : Nat) (r : CsvRow), (sortRows rows)[j]? = some r ∧
        e.cost_id = r.left_id % 65536 ∧
        e.word_cost % 65536 = r.word_cost % 65536 ∧
        -32768 ≤ e.word_cost ∧ e.word_cost < 32768) ∧
    (∀ (h0 h1 : Int) (hr : List Int) (data : List (List Int)) (costs : List Int),
      processMatrixLines ((h0 :: h1 :: hr) :: data) = .ok costs →
      (∃ v0, costs[0]? = some v0 ∧ v0 % 65536 = h0 % 65536 ∧
        -32768 ≤ v0 ∧ v0 < 32768) ∧
      (∃ v1, costs[1]? = some v1 ∧ v1 % 65536 = h1 % 65536 ∧
        -32768 ≤ v1 ∧ v1 < 32768)) ∧
    (∀ (bsize : Nat) (entries : List (Int × Int × Int)) (costs cs : List Int),
      matrixLoop bsize (entries.map entryLine) costs = .ok cs →
      List.Pairwise (fun t u => mtxIdx bsize t ≠ mtxIdx bsize u) entries →
      ∀ t ∈ entries, ∃ v, cs[mtxIdx bsize t]? = some v ∧
        v % 65536 = t.2.2 % 65536 ∧ -32768 ≤ v ∧ v < 32768) := by
  refine ⟨?_, ?_, ?_⟩
  · intro rows k e he
    rw [word_entry_map_lookup] at he
    rcases mem_entriesFor he with ⟨j, r, hget, hmk, hsurf, hskip⟩
    refine ⟨j, r, hget, ?_, ?_, ?_, ?_⟩
    · rw [hmk]
      rfl
    · rw [hmk]
      exact intAsI16_emod r.word_cost
    · rw [hmk]
      exact toI16_lower _
    · rw [hmk]
      exact toI16_upper _
  · intro h0 h1 hr data costs hok
    rw [processMatrixLines_cons] at hok
    rcases matrixLoop_ok_general _ data _ costs hok with ⟨hlen, huntouched⟩
    constructor
    · refine ⟨natAsI16 (intAsU32 h0), ?_, natAsI16_intAsU32_emod h0,
        toI16_lower _, toI16_upper _⟩
      rw [huntouched 0 (fun l hl g0 g1 e0 e1 => by omega)]
      rw [List.getElem?_set_ne (show (1 : Nat) ≠ 0 by omega)]
      exact List.getElem?_set_self (by rw [List.length_replicate]; omega)
    · refine ⟨natAsI16 (intAsU32 h1), ?_, natAsI16_intAsU32_emod h1,
        toI16_lower _, toI16_upper _⟩
      rw [huntouched 1 (fun l hl g0 g1 e0 e1 => by omega)]
      exact List.getElem?_set_self
        (by rw [List.length_set, List.length_replicate]; omega)
  · intro bsize entries costs cs hok hpair t ht
    refine ⟨toI16 (intAsU16 t.2.2),
      matrixLoop_ok_writes bsize entries costs cs hok hpair t ht,
      intAsU16_toI16_emod t.2.2, toI16_lower _, toI16_upper _⟩

/-- C10 witness: the narrowing statements at concrete inputs: the entry of
the two-row dictionary input, the matrix header (2, 2) with no data lines,
and one matrix write of cost 5. -/
theorem narrowing_casts_witness :
    (∃ (j : Nat) (r : CsvRow), (sortRows rowsBA)[j]? = some r ∧
      (mkEntry 0 rowA).cost_id = r.left_id % 65536 ∧
      (mkEntry 0 rowA).word_cost % 65536 = r.word_cost % 65536 ∧
      -32768 ≤ (mkEntry 0 rowA).word_cost ∧ (mkEntry 0 rowA).word_cost < 32768) ∧
    ((∃ v0, ([2, 2, 32767, 32767, 32767, 32767] : List Int)[0]? = some v0 ∧
      v0 % 65536 = (2 : Int) % 65536 ∧ -32768 ≤ v0 ∧ v0 < 32768) ∧
     (∃ v1, ([2, 2, 32767, 32767, 32767, 32767] : List Int)[1]? = some v1 ∧
      v1 % 65536 = (2 : Int) % 65536 ∧ -32768 ≤ v1 ∧ v1 < 32768)) ∧
    (∀ t ∈ [((0 : Int), (1 : Int), (5 : Int))],
      ∃ v, ([32767, 32767, 32767, 5, 32767, 32767] : List Int)[mtxIdx 2 t]? =
          some v ∧
        v % 65536 = t.2.2 % 65536 ∧ -32768 ≤ v ∧ v < 32768) :=
  ⟨narrowing_casts.1 rowsBA (strOf ("a")) (mkEntry 0 rowA) (by decide),
   narrowing_casts.2.1 2 2 [] [] [2, 2, 32767, 32767, 32767, 32767] (by decide),
   narrowing_casts.2.2 2 [(0, 1, 5)] (List.replicate 6 (32767 : Int))
     [32767, 32767, 32767, 5, 32767, 32767] (by decide) (by simp)⟩

end Lindera
